import Mathlib

/-!
Verification of the hierarchical aggregation engine and the proportional
allocator of the CP-TP-QP repository.

The tree side embeds the functions of src/data/hierarchy.ts:
getRolledUpHeadcount, getRolledUpValidatedCapacity, updateNodeInTree,
updateHeadcountAndRollUp and its helper recalcParentHeadcounts.
The allocator side embeds the numeric core of handleOptimize from
TerritoryPlanning.tsx: proportional shares, floors, and the
largest-remainder distribution driven by a stable descending sort of
fractional parts. JavaScript numbers are idealised as exact rationals,
and the optional children array is modelled as a plain list, the
undefined case coinciding with the empty list.
-/

/-- Record of the scalar fields of an OrgNode, following types.ts.
The children array is kept apart so the tree is a nested inductive. -/
structure NodeData where
  id : String
  rowNumber : Int
  name : String
  personName : String
  role : String
  directReports : Option Int
  avatarUrl : Option String
  avatarInitials : Option String
  avatarColor : Option String
  targetCapacity : Int
  headcount : Int
  expectedCapacity : Int
  validatedCapacity : Option Int
  difference : Int
  status : String
  depth : Int
  segments : Option (List String)
  repType : Option String
  industry : Option String
  startDate : Option String
  allocatedHC : Option Int
  validatedVeterans : Option Int
  validatedTBH : Option Int
  totalHC : Option Int
deriving DecidableEq, Repr

/-- An OrgNode of types.ts: scalar data plus the ordered children. -/
inductive OrgNode where
  | node (data : NodeData) (children : List OrgNode)
deriving Repr

/-- Scalar data of a node. -/
def OrgNode.data : OrgNode → NodeData
  | .node d _ => d

/-- Children of a node. -/
def OrgNode.children : OrgNode → List OrgNode
  | .node _ cs => cs

/-- Headcount field of a node. -/
def OrgNode.headcount (t : OrgNode) : Int := t.data.headcount

/-- Id field of a node. -/
def OrgNode.id (t : OrgNode) : String := t.data.id

mutual

/-- getRolledUpHeadcount of hierarchy.ts: a leaf returns its own
headcount, an inner node the sum of the rolled-up children. -/
def getRolledUpHeadcount : OrgNode → Int
  | .node d cs => if cs.isEmpty then d.headcount else hcRollSum cs 0

/-- The reduce over children inside getRolledUpHeadcount, with the
accumulator made explicit. -/
def hcRollSum : List OrgNode → Int → Int
  | [], acc => acc
  | c :: cs, acc => hcRollSum cs (acc + getRolledUpHeadcount c)

end

mutual

/-- getRolledUpValidatedCapacity of hierarchy.ts: a leaf returns its own
validatedCapacity, an inner node folds the children keeping a running
total and a flag recording whether any child produced a value. -/
def getRolledUpValidatedCapacity : OrgNode → Option Int
  | .node d cs =>
    if cs.isEmpty then d.validatedCapacity
    else
      match vcFold cs 0 false with
      | (total, hasAny) => if hasAny then some total else none

/-- The for loop inside getRolledUpValidatedCapacity: accumulates the
total of the non-null child rollups and whether one was seen. -/
def vcFold : List OrgNode → Int → Bool → Int × Bool
  | [], total, hasAny => (total, hasAny)
  | c :: cs, total, hasAny =>
    match getRolledUpValidatedCapacity c with
    | some v => vcFold cs (total + v) true
    | none => vcFold cs total hasAny

end

mutual

/-- updateNodeInTree of hierarchy.ts: locate the node by id and apply the
updater to it; every other node is rebuilt with mapped children. -/
def updateNodeInTree (root : OrgNode) (nodeId : String) (updater : OrgNode → OrgNode) : OrgNode :=
  match root with
  | .node d cs =>
    if d.id = nodeId then updater (.node d cs)
    else .node d (updateChildren cs nodeId updater)

/-- The children.map of updateNodeInTree. -/
def updateChildren (cs : List OrgNode) (nodeId : String) (updater : OrgNode → OrgNode) : List OrgNode :=
  match cs with
  | [] => []
  | c :: rest => updateNodeInTree c nodeId updater :: updateChildren rest nodeId updater

end

/-- The reduce inside recalcParentHeadcounts: sum of the headcount
fields of a list of nodes. -/
def sumHeadcounts (cs : List OrgNode) : Int :=
  cs.foldl (fun s c => s + c.headcount) 0

mutual

/-- recalcParentHeadcounts of hierarchy.ts: bottom-up pass setting every
inner node headcount to the sum of the headcounts of its children. -/
def recalcParentHeadcounts : OrgNode → OrgNode
  | .node d cs =>
    if cs.isEmpty then .node d cs
    else
      let updatedChildren := recalcChildren cs
      .node { d with headcount := sumHeadcounts updatedChildren } updatedChildren

/-- The children.map of recalcParentHeadcounts. -/
def recalcChildren : List OrgNode → List OrgNode
  | [] => []
  | c :: cs => recalcParentHeadcounts c :: recalcChildren cs

end

/-- updateHeadcountAndRollUp of hierarchy.ts: set the target headcount,
then recalculate every parent headcount over the whole tree. -/
def updateHeadcountAndRollUp (root : OrgNode) (nodeId : String) (newHeadcount : Int) : OrgNode :=
  recalcParentHeadcounts
    (updateNodeInTree root nodeId (fun n => .node { n.data with headcount := newHeadcount } n.children))

/-! Observers used to state the claims. They are not part of the source;
they only read the tree. -/

mutual

/-- Whether some node of the tree carries the given id. -/
def containsId : OrgNode → String → Bool
  | .node d cs, nodeId => d.id == nodeId || containsIdList cs nodeId

/-- List version of containsId. -/
def containsIdList : List OrgNode → String → Bool
  | [], _ => false
  | c :: cs, nodeId => containsId c nodeId || containsIdList cs nodeId

end

mutual

/-- Invariant 2 of the spec: every node with children stores as headcount
exactly the sum of the headcounts of its direct children. -/
def rolledUpOkB : OrgNode → Bool
  | .node d cs =>
    (cs.isEmpty || d.headcount == sumHeadcounts cs) && rolledUpOkListB cs

/-- List version of rolledUpOkB. -/
def rolledUpOkListB : List OrgNode → Bool
  | [] => true
  | c :: cs => rolledUpOkB c && rolledUpOkListB cs

end

mutual

/-- Every node carrying the given id is a leaf. -/
def isLeafIdB : OrgNode → String → Bool
  | .node d cs, nodeId =>
    (d.id != nodeId || cs.isEmpty) && isLeafIdListB cs nodeId

/-- List version of isLeafIdB. -/
def isLeafIdListB : List OrgNode → String → Bool
  | [], _ => true
  | c :: cs, nodeId => isLeafIdB c nodeId && isLeafIdListB cs nodeId

end

mutual

/-- Every node carrying the given id has at least one child. -/
def internalAtIdB : OrgNode → String → Bool
  | .node d cs, nodeId =>
    (d.id != nodeId || !cs.isEmpty) && internalAtIdListB cs nodeId

/-- List version of internalAtIdB. -/
def internalAtIdListB : List OrgNode → String → Bool
  | [], _ => true
  | c :: cs, nodeId => internalAtIdB c nodeId && internalAtIdListB cs nodeId

end

mutual

/-- The tree with every headcount field replaced by zero: two trees agree
after stripHeadcount exactly when they share the structure and every
field other than headcount. -/
def stripHeadcount : OrgNode → OrgNode
  | .node d cs => .node { d with headcount := 0 } (stripHeadcountList cs)

/-- List version of stripHeadcount. -/
def stripHeadcountList : List OrgNode → List OrgNode
  | [] => []
  | c :: cs => stripHeadcount c :: stripHeadcountList cs

end

mutual

/-- The validatedCapacity fields of the descendant leaves, left to right. -/
def leafCaps : OrgNode → List (Option Int)
  | .node d cs => if cs.isEmpty then [d.validatedCapacity] else leafCapsList cs

/-- List version of leafCaps. -/
def leafCapsList : List OrgNode → List (Option Int)
  | [] => []
  | c :: cs => leafCaps c ++ leafCapsList cs

end

mutual

/-- The headcount fields of the descendant leaves, left to right. -/
def leafHeadcounts : OrgNode → List Int
  | .node d cs => if cs.isEmpty then [d.headcount] else leafHeadcountsList cs

/-- List version of leafHeadcounts. -/
def leafHeadcountsList : List OrgNode → List Int
  | [] => []
  | c :: cs => leafHeadcounts c ++ leafHeadcountsList cs

end

/-- Subtree at a position given by child indices from the root. -/
def getAt : OrgNode → List Nat → Option OrgNode
  | t, [] => some t
  | .node _ cs, i :: p =>
    match cs.get? i with
    | some c => getAt c p
    | none => none

/-- True when the position is outside the tree or the subtree there does
not contain the given id. Positions satisfying this are exactly the
nodes that are neither the node carrying the id nor one of its
ancestors. -/
def subtreeLacksId (t : OrgNode) (p : List Nat) (nodeId : String) : Bool :=
  match getAt t p with
  | some s => !containsId s nodeId
  | none => true

/-- Headcount stored at a position. -/
def headcountAt (t : OrgNode) (p : List Nat) : Option Int :=
  (getAt t p).map OrgNode.headcount

/-- Spec-side validated-capacity rollup, following the words of the
spec: unset when every descendant leaf is unset, otherwise the sum of
the non-unset descendant leaf values. -/
def vcRollupSpec (t : OrgNode) : Option Int :=
  let vs := (leafCaps t).filterMap (fun x => x)
  if vs.isEmpty then none else some vs.sum

/-! The proportional allocator: the numeric core of handleOptimize in
TerritoryPlanning.tsx, factored into named pieces. Pools are integers,
weights and shares exact rationals. The JavaScript stable sort with
comparator b.frac - a.frac is modelled by insertionSort with the
relation that lets an element precede another exactly when its
fractional part is at least as large, which is stable and descending. -/

/-- Sort relation of the fractionals array: a may precede b when the
fractional part of b is at most that of a. -/
def fracGE (a b : Nat × ℚ) : Prop := b.2 ≤ a.2

instance : DecidableRel fracGE := fun a b => inferInstanceAs (Decidable (b.2 ≤ a.2))

instance : IsTotal (Nat × ℚ) fracGE := ⟨fun a b => le_total b.2 a.2⟩

instance : IsTrans (Nat × ℚ) fracGE := ⟨fun _ _ _ h h2 => le_trans h2 h⟩

/-- The totalCapacity reduce of handleOptimize. -/
def totalOf (w : List ℚ) : ℚ := w.foldl (· + ·) 0

/-- The rawUnits and rawTam maps of handleOptimize: exact proportional
share of the pool for each weight. -/
def rawShares (w : List ℚ) (pool : Int) : List ℚ :=
  w.map (fun c => c / totalOf w * (pool : ℚ))

/-- The flooredUnits and flooredTam maps: floor of each raw share. -/
def flooredShares (w : List ℚ) (pool : Int) : List Int :=
  (rawShares w pool).map (fun u => ⌊u⌋)

/-- The remaining count: pool minus the sum of the floors. -/
def leftoverOf (w : List ℚ) (pool : Int) : Int :=
  pool - (flooredShares w pool).foldl (· + ·) 0

/-- The fractionals array: index paired with the fractional part of the
raw share, built left to right from the given start index. -/
def fracsFrom : Nat → List ℚ → List (Nat × ℚ)
  | _, [] => []
  | i, u :: us => (i, u - (⌊u⌋ : ℚ)) :: fracsFrom (i + 1) us

/-- The fractionals array of handleOptimize for the given weights. -/
def fracsOf (w : List ℚ) (pool : Int) : List (Nat × ℚ) :=
  fracsFrom 0 (rawShares w pool)

/-- The fractionals array after the stable descending sort. -/
def sortedFracsOf (w : List ℚ) (pool : Int) : List (Nat × ℚ) :=
  List.insertionSort fracGE (fracsOf w pool)

/-- Indices receiving one extra unit: the first remaining entries of the
sorted fractionals. -/
def winnersOf (w : List ℚ) (pool : Int) : List Nat :=
  ((sortedFracsOf w pool).take (leftoverOf w pool).toNat).map Prod.fst

/-- One increment step of the distribution loop: add one at an index. -/
def bump : List Int → Nat → List Int
  | [], _ => []
  | x :: xs, 0 => (x + 1) :: xs
  | x :: xs, n + 1 => x :: bump xs n

/-- The complete integer allocation of one pool in handleOptimize:
floors plus one extra unit at each winner index. -/
def alloc (w : List ℚ) (pool : Int) : List Int :=
  (winnersOf w pool).foldl bump (flooredShares w pool)

/-- Spec-side strict priority between entries, following the words of
the claim: an entry beats another when its fractional remainder is
strictly larger, or the remainders are equal and its input index is
smaller. -/
def precB (a b : Nat × ℚ) : Bool :=
  decide (b.2 < a.2) || (decide (a.2 = b.2) && decide (a.1 < b.1))

/-- Spec-side winner predicate, following the words of the claim: an
entry receives an extra unit exactly when fewer than k entries beat it. -/
def specWinsB (fracs : List (Nat × ℚ)) (k : Nat) (e : Nat × ℚ) : Bool :=
  decide (fracs.countP (fun x => precB x e) < k)

/-- A row of the territory table, following TerritoryPlanning.tsx. -/
structure TerritoryRow where
  id : String
  name : String
  owner : String
  region : String
  units : Option Int
  tam : Option Int
deriving DecidableEq, Repr

/-- The component state touched by handleOptimize: the rows, the
optimized flag and the banner flag. -/
structure TPState where
  territoryData : List TerritoryRow
  optimized : Bool
  showBanner : Bool
deriving DecidableEq, Repr

/-- The capacities array of handleOptimize: validated capacity of the
owner of each non-unassigned row, zero when absent. The aeInfo map is
modelled as a function from owner name to optional capacity. -/
def aeCapacities (aeInfo : String → Option ℚ) (st : TPState) : List ℚ :=
  (st.territoryData.filter (fun t => t.id != "unassigned")).map
    (fun t => (aeInfo t.owner).getD 0)

/-- The totalCapacity of handleOptimize. -/
def totalCapacityOf (aeInfo : String → Option ℚ) (st : TPState) : ℚ :=
  totalOf (aeCapacities aeInfo st)

/-- The updated map of handleOptimize: the unassigned row gets zero in
both pools, the other rows consume the allocation lists in order. -/
def buildUpdated : List TerritoryRow → List Int → List Int → List TerritoryRow
  | [], _, _ => []
  | r :: rs, us, ts =>
    if r.id = "unassigned" then
      { r with units := some 0, tam := some 0 } :: buildUpdated rs us ts
    else
      { r with units := some (us.headD 0), tam := some (ts.headD 0) } ::
        buildUpdated rs us.tail ts.tail

/-- handleOptimize of TerritoryPlanning.tsx as a state transformer: on
zero total capacity it returns early leaving the state untouched,
otherwise it allocates 1000 units and 12000 TAM proportionally and sets
the optimized and banner flags. -/
def handleOptimize (aeInfo : String → Option ℚ) (st : TPState) : TPState :=
  let capacities := aeCapacities aeInfo st
  let totalCapacity := capacities.foldl (· + ·) 0
  if totalCapacity = 0 then st
  else
    { territoryData :=
        buildUpdated st.territoryData (alloc capacities 1000) (alloc capacities 12000),
      optimized := true,
      showBanner := true }

/-! Concrete data used by witnesses and counterexamples. -/

/-- Node data with the given id, headcount and validated capacity, all
other fields at fixed defaults. -/
def mkData (nodeId : String) (hc : Int) (vc : Option Int) : NodeData :=
  { id := nodeId, rowNumber := 0, name := "", personName := "", role := "",
    directReports := none, avatarUrl := none, avatarInitials := none, avatarColor := none,
    targetCapacity := 0, headcount := hc, expectedCapacity := 0, validatedCapacity := vc,
    difference := 0, status := "", depth := 0, segments := none, repType := none,
    industry := none, startDate := none, allocatedHC := none, validatedVeterans := none,
    validatedTBH := none, totalHC := none }

/-- A small tree satisfying the headcount rollup invariant: root r with
headcount 3 over leaves a and b with headcounts 1 and 2. -/
def sampleTree : OrgNode :=
  .node (mkData "r" 3 none)
    [.node (mkData "a" 1 (some 0)) [], .node (mkData "b" 2 none) []]

/-- A tree violating the headcount rollup invariant: the inner node b
stores 5 while its only child c stores 2. -/
def brokenTree : OrgNode :=
  .node (mkData "r" 0 none)
    [.node (mkData "a" 1 none) [],
     .node (mkData "b" 5 none) [.node (mkData "c" 2 none) []]]

/-- Territory rows for the degenerate-allocation witness. -/
def sampleRows : List TerritoryRow :=
  [{ id := "t1", name := "US 1", owner := "AE1", region := "US", units := none, tam := none },
   { id := "unassigned", name := "Unassigned", owner := "", region := "",
     units := some 1000, tam := some 12000 }]

/-- State before optimizing, for the degenerate-allocation witness. -/
def sampleState : TPState :=
  { territoryData := sampleRows, optimized := false, showBanner := true }

/-- An aeInfo map with no known capacities. -/
def sampleAeInfo : String → Option ℚ := fun _ => none

/-- Structural induction principle for OrgNode that hands the induction
hypothesis for every member of the children list. -/
theorem orgnode_ind (P : OrgNode → Prop)
    (h : ∀ d cs, (∀ c ∈ cs, P c) → P (OrgNode.node d cs)) : ∀ t, P t := by
  intro t
  have key : ∀ n (t : OrgNode), sizeOf t ≤ n → P t := by
    intro n
    induction n with
    | zero => intro t ht; cases t with | node d cs => simp at ht
    | succ n ih =>
      intro t ht
      cases t with
      | node d cs =>
        apply h
        intro c hc
        apply ih
        have hlt := List.sizeOf_lt_of_mem hc
        simp at ht
        omega
  exact key (sizeOf t) t le_rfl

/-! Basic lemmas about the folds and the recalculation pass. -/

theorem hcRollSum_eq : ∀ (cs : List OrgNode) (acc : Int),
    hcRollSum cs acc = acc + (cs.map getRolledUpHeadcount).sum := by
  intro cs
  induction cs with
  | nil => intro acc; simp [hcRollSum]
  | cons c rest ih =>
    intro acc
    simp [hcRollSum, ih]
    ring

theorem sumHeadcounts_eq (cs : List OrgNode) :
    sumHeadcounts cs = (cs.map OrgNode.headcount).sum := by
  have key : ∀ (l : List OrgNode) (a : Int),
      l.foldl (fun s c => s + c.headcount) a = a + (l.map OrgNode.headcount).sum := by
    intro l
    induction l with
    | nil => intro a; simp
    | cons c rest ih =>
      intro a
      simp [ih]
      ring
  simpa using key cs 0

theorem leafHeadcountsList_eq (cs : List OrgNode) :
    leafHeadcountsList cs = (cs.map leafHeadcounts).flatten := by
  induction cs with
  | nil => simp [leafHeadcountsList]
  | cons c rest ih => simp [leafHeadcountsList, ih]

theorem getRolledUpHeadcount_eq_leafSum :
    ∀ t, getRolledUpHeadcount t = (leafHeadcounts t).sum := by
  apply orgnode_ind
  intro d cs ih
  cases cs with
  | nil => simp [getRolledUpHeadcount, leafHeadcounts]
  | cons c rest =>
    simp only [getRolledUpHeadcount, leafHeadcounts, List.isEmpty_cons, Bool.false_eq_true,
      if_false]
    rw [hcRollSum_eq, leafHeadcountsList_eq]
    simp only [zero_add, List.sum_flatten, List.map_map]
    congr 1
    apply List.map_congr_left
    intro c hc
    exact ih c hc

theorem recalcChildren_eq (cs : List OrgNode) :
    recalcChildren cs = cs.map recalcParentHeadcounts := by
  induction cs with
  | nil => simp [recalcChildren]
  | cons c rest ih => simp [recalcChildren, ih]

theorem headcount_recalc : ∀ t,
    (recalcParentHeadcounts t).headcount = getRolledUpHeadcount t := by
  apply orgnode_ind
  intro d cs ih
  cases cs with
  | nil => simp [recalcParentHeadcounts, getRolledUpHeadcount, OrgNode.headcount, OrgNode.data]
  | cons c rest =>
    simp only [recalcParentHeadcounts, getRolledUpHeadcount, List.isEmpty_cons,
      Bool.false_eq_true, if_false]
    simp only [OrgNode.headcount, OrgNode.data]
    rw [sumHeadcounts_eq, hcRollSum_eq, recalcChildren_eq]
    simp only [zero_add, List.map_map]
    congr 1
    apply List.map_congr_left
    intro x hx
    exact ih x hx

theorem rolledUpOkListB_iff : ∀ l : List OrgNode,
    rolledUpOkListB l = true ↔ ∀ c ∈ l, rolledUpOkB c = true := by
  intro l
  induction l with
  | nil => simp [rolledUpOkListB]
  | cons c rest ih => simp [rolledUpOkListB, ih]

theorem headcount_update_self (d : NodeData) : ({ d with headcount := d.headcount }) = d := rfl

theorem rolledUpOkB_recalc : ∀ t, rolledUpOkB (recalcParentHeadcounts t) = true := by
  apply orgnode_ind
  intro d cs ih
  cases cs with
  | nil => simp [recalcParentHeadcounts, rolledUpOkB, rolledUpOkListB]
  | cons c rest =>
    simp only [recalcParentHeadcounts, List.isEmpty_cons, Bool.false_eq_true, if_false]
    simp only [rolledUpOkB, recalcChildren]
    rw [Bool.and_eq_true]
    constructor
    · simp
    · rw [rolledUpOkListB_iff]
      intro x hx
      have hx' : x ∈ recalcChildren (c :: rest) := by rw [recalcChildren]; exact hx
      rw [recalcChildren_eq] at hx'
      obtain ⟨y, hy, rfl⟩ := List.mem_map.mp hx'
      exact ih y hy

theorem recalc_eq_of_ok : ∀ t, rolledUpOkB t = true → recalcParentHeadcounts t = t := by
  apply orgnode_ind
  intro d cs ih hok
  cases cs with
  | nil => simp [recalcParentHeadcounts]
  | cons c rest =>
    simp only [rolledUpOkB, List.isEmpty_cons, Bool.false_eq_true, Bool.false_or,
      Bool.and_eq_true, beq_iff_eq, rolledUpOkListB_iff] at hok
    obtain ⟨hhc, hall⟩ := hok
    have hcs : recalcChildren (c :: rest) = c :: rest := by
      rw [recalcChildren_eq]
      have : ∀ x ∈ c :: rest, recalcParentHeadcounts x = x := fun x hx => ih x hx (hall x hx)
      calc List.map recalcParentHeadcounts (c :: rest)
          = List.map id (c :: rest) := List.map_congr_left this
        _ = c :: rest := List.map_id _
    simp only [recalcParentHeadcounts, List.isEmpty_cons, Bool.false_eq_true, if_false]
    rw [hcs, ← hhc, headcount_update_self]

theorem headcount_eq_rollup_of_ok : ∀ t, rolledUpOkB t = true →
    t.headcount = getRolledUpHeadcount t := by
  apply orgnode_ind
  intro d cs ih hok
  cases cs with
  | nil => simp [getRolledUpHeadcount, OrgNode.headcount, OrgNode.data]
  | cons c rest =>
    simp only [rolledUpOkB, List.isEmpty_cons, Bool.false_eq_true, Bool.false_or,
      Bool.and_eq_true, beq_iff_eq, rolledUpOkListB_iff] at hok
    obtain ⟨hhc, hall⟩ := hok
    simp only [getRolledUpHeadcount, List.isEmpty_cons, Bool.false_eq_true, if_false,
      OrgNode.headcount, OrgNode.data]
    rw [hhc, sumHeadcounts_eq, hcRollSum_eq, zero_add]
    congr 1
    apply List.map_congr_left
    intro x hx
    exact ih x hx (hall x hx)

/-- Claim C1: after updateHeadcountAndRollUp, for any tree, target id and
value, every node with children stores headcount equal to the sum of the
headcounts of its direct children, and the root headcount equals the
rolled-up headcount of the result, which is the sum of all leaf
headcounts of the result. -/
theorem C1_rollup_after_update (t : OrgNode) (nodeId : String) (v : Int) :
    rolledUpOkB (updateHeadcountAndRollUp t nodeId v) = true ∧
    (updateHeadcountAndRollUp t nodeId v).headcount =
      getRolledUpHeadcount (updateHeadcountAndRollUp t nodeId v) ∧
    getRolledUpHeadcount (updateHeadcountAndRollUp t nodeId v) =
      (leafHeadcounts (updateHeadcountAndRollUp t nodeId v)).sum := by
  refine ⟨?_, ?_, ?_⟩
  · exact rolledUpOkB_recalc _
  · exact headcount_eq_rollup_of_ok _ (rolledUpOkB_recalc _)
  · exact getRolledUpHeadcount_eq_leafSum _

/-! Claim C7: updateNodeInTree with an id absent from the tree. -/

theorem containsIdList_false_iff : ∀ (l : List OrgNode) (nodeId : String),
    containsIdList l nodeId = false ↔ ∀ c ∈ l, containsId c nodeId = false := by
  intro l nodeId
  induction l with
  | nil => simp [containsIdList]
  | cons c rest ih => simp [containsIdList, ih]

theorem updateChildren_eq (cs : List OrgNode) (nodeId : String) (u : OrgNode → OrgNode) :
    updateChildren cs nodeId u = cs.map (fun c => updateNodeInTree c nodeId u) := by
  induction cs with
  | nil => simp [updateChildren]
  | cons c rest ih => simp [updateChildren, ih]

theorem update_eq_of_not_contains : ∀ (t : OrgNode), ∀ (nodeId : String) (u : OrgNode → OrgNode),
    containsId t nodeId = false → updateNodeInTree t nodeId u = t := by
  apply orgnode_ind
  intro d cs ih nodeId u h
  simp only [containsId, Bool.or_eq_false_iff, beq_eq_false_iff_ne, ne_eq,
    containsIdList_false_iff] at h
  obtain ⟨hid, hall⟩ := h
  simp only [updateNodeInTree, if_neg hid, updateChildren_eq]
  congr 1
  calc List.map (fun c => updateNodeInTree c nodeId u) cs
      = List.map id cs := List.map_congr_left (fun c hc => ih c hc nodeId u (hall c hc))
    _ = cs := List.map_id cs

/-- Claim C7: when the target id occurs nowhere in the tree,
updateNodeInTree returns the tree unchanged, for every updater. The
function is total, so the call cannot throw. -/
theorem C7_update_missing_id_noop (t : OrgNode) (nodeId : String) (updater : OrgNode → OrgNode)
    (h : containsId t nodeId = false) : updateNodeInTree t nodeId updater = t :=
  update_eq_of_not_contains t nodeId updater h

/-- Witness for C7 at a concrete tree and absent id. -/
theorem C7_update_missing_id_noop_witness :
    containsId sampleTree "zz" = false ∧
    updateNodeInTree sampleTree "zz" (fun _ => OrgNode.node (mkData "x" 9 none) []) = sampleTree :=
  ⟨by decide, C7_update_missing_id_noop sampleTree "zz"
    (fun _ => OrgNode.node (mkData "x" 9 none) []) (by decide)⟩

/-! Claim C10: the headcount edit touches nothing but headcount. -/

theorem stripHeadcountList_eq (cs : List OrgNode) :
    stripHeadcountList cs = cs.map stripHeadcount := by
  induction cs with
  | nil => simp [stripHeadcountList]
  | cons c rest ih => simp [stripHeadcountList, ih]

theorem strip_update : ∀ (t : OrgNode), ∀ (nodeId : String) (v : Int),
    stripHeadcount (updateNodeInTree t nodeId
      (fun n => OrgNode.node { n.data with headcount := v } n.children)) = stripHeadcount t := by
  apply orgnode_ind
  intro d cs ih nodeId v
  by_cases hid : d.id = nodeId
  · simp [updateNodeInTree, hid, stripHeadcount, OrgNode.data, OrgNode.children]
  · simp only [updateNodeInTree, if_neg hid, stripHeadcount, updateChildren_eq,
      stripHeadcountList_eq, List.map_map]
    congr 1
    apply List.map_congr_left
    intro c hc
    exact ih c hc nodeId v

theorem strip_recalc : ∀ t, stripHeadcount (recalcParentHeadcounts t) = stripHeadcount t := by
  apply orgnode_ind
  intro d cs ih
  cases cs with
  | nil => simp [recalcParentHeadcounts]
  | cons c rest =>
    simp only [recalcParentHeadcounts, List.isEmpty_cons, Bool.false_eq_true, if_false,
      stripHeadcount, recalcChildren_eq, stripHeadcountList_eq, List.map_map]
    congr 1
    apply List.map_congr_left
    intro x hx
    exact ih x hx

/-- Claim C10: updateHeadcountAndRollUp preserves the tree structure,
the ids, the order of children and every field other than headcount on
every node: the two trees agree after erasing headcounts. -/
theorem C10_update_touches_only_headcount (t : OrgNode) (nodeId : String) (v : Int) :
    stripHeadcount (updateHeadcountAndRollUp t nodeId v) = stripHeadcount t := by
  unfold updateHeadcountAndRollUp
  rw [strip_recalc, strip_update]

/-! Claim C8: edits at a node with children are transient. -/

theorem internalAtIdListB_iff : ∀ (l : List OrgNode) (nodeId : String),
    internalAtIdListB l nodeId = true ↔ ∀ c ∈ l, internalAtIdB c nodeId = true := by
  intro l nodeId
  induction l with
  | nil => simp [internalAtIdListB]
  | cons c rest ih => simp [internalAtIdListB, ih]

theorem recalc_node_congr (d : NodeData) (l1 l2 : List OrgNode)
    (h1 : l1 ≠ []) (h2 : l2 ≠ [])
    (h : List.map recalcParentHeadcounts l1 = List.map recalcParentHeadcounts l2) :
    recalcParentHeadcounts (OrgNode.node d l1) = recalcParentHeadcounts (OrgNode.node d l2) := by
  cases l1 with
  | nil => exact absurd rfl h1
  | cons a as =>
    cases l2 with
    | nil => exact absurd rfl h2
    | cons b bs =>
      simp only [recalcParentHeadcounts, List.isEmpty_cons, Bool.false_eq_true, if_false,
        recalcChildren_eq]
      rw [h]

theorem update_const_of_internal : ∀ (t : OrgNode), ∀ (nodeId : String) (v w : Int),
    internalAtIdB t nodeId = true →
    updateHeadcountAndRollUp t nodeId v = updateHeadcountAndRollUp t nodeId w := by
  apply orgnode_ind
  intro d cs ih nodeId v w h
  simp only [internalAtIdB, Bool.and_eq_true, Bool.or_eq_true, bne_iff_ne, ne_eq,
    internalAtIdListB_iff] at h
  obtain ⟨hroot, hall⟩ := h
  by_cases hid : d.id = nodeId
  · have hcs : ¬cs.isEmpty = true := by
      rcases hroot with h1 | h2
      · exact absurd hid h1
      · simp at h2; simp [h2]
    cases cs with
    | nil => simp at hcs
    | cons c rest =>
      simp [updateHeadcountAndRollUp, updateNodeInTree, hid, OrgNode.data, OrgNode.children,
        recalcParentHeadcounts]
  · simp only [updateHeadcountAndRollUp, updateNodeInTree, if_neg hid, updateChildren_eq]
    cases cs with
    | nil => simp
    | cons c rest =>
      apply recalc_node_congr
      · simp
      · simp
      · simp only [List.map_map]
        apply List.map_congr_left
        intro x hx
        exact ih x hx nodeId v w (hall x hx)

/-- Claim C8: when every node carrying the target id has children, the
value passed to updateHeadcountAndRollUp is transient: the resulting
tree does not depend on it, and the result satisfies the rollup
invariant, so the target ends at the sum of the headcounts of its
children. -/
theorem C8_internal_edit_transient (t : OrgNode) (nodeId : String) (v w : Int)
    (h : internalAtIdB t nodeId = true) :
    updateHeadcountAndRollUp t nodeId v = updateHeadcountAndRollUp t nodeId w ∧
    rolledUpOkB (updateHeadcountAndRollUp t nodeId v) = true :=
  ⟨update_const_of_internal t nodeId v w h, rolledUpOkB_recalc _⟩

/-- Witness for C8 at the sample tree, editing the internal root. -/
theorem C8_internal_edit_transient_witness :
    internalAtIdB sampleTree "r" = true ∧
    (updateHeadcountAndRollUp sampleTree "r" 99 = updateHeadcountAndRollUp sampleTree "r" 0 ∧
     rolledUpOkB (updateHeadcountAndRollUp sampleTree "r" 99) = true) :=
  ⟨by decide, C8_internal_edit_transient sampleTree "r" 99 0 (by decide)⟩

/-! Claim C3: locality of a leaf edit. -/

theorem rolledUpOkB_children (d : NodeData) (cs : List OrgNode)
    (hok : rolledUpOkB (OrgNode.node d cs) = true) :
    ∀ c ∈ cs, rolledUpOkB c = true := by
  simp only [rolledUpOkB, Bool.and_eq_true, rolledUpOkListB_iff] at hok
  exact hok.2

theorem getAt_node_cons (d : NodeData) (cs : List OrgNode) (i : Nat) (p : List Nat) :
    getAt (OrgNode.node d cs) (i :: p) =
      match cs.get? i with
      | some c => getAt c p
      | none => none := rfl

theorem getAt_update_of_ok : ∀ (t : OrgNode), rolledUpOkB t = true →
    ∀ (nodeId : String) (v : Int) (p : List Nat), subtreeLacksId t p nodeId = true →
    getAt (updateHeadcountAndRollUp t nodeId v) p = getAt t p := by
  apply orgnode_ind
  intro d cs ih hok nodeId v p hlack
  cases p with
  | nil =>
    have hnc : containsId (OrgNode.node d cs) nodeId = false := by
      simp only [subtreeLacksId, getAt, Bool.not_eq_true'] at hlack
      exact hlack
    rw [updateHeadcountAndRollUp, update_eq_of_not_contains _ _ _ hnc, recalc_eq_of_ok _ hok]
  | cons i p' =>
    have hok' : ∀ c ∈ cs, rolledUpOkB c = true := rolledUpOkB_children d cs hok
    by_cases hid : d.id = nodeId
    · simp only [updateHeadcountAndRollUp, updateNodeInTree, if_pos hid, OrgNode.data,
        OrgNode.children]
      cases cs with
      | nil => simp [recalcParentHeadcounts, getAt]
      | cons c rest =>
        simp only [recalcParentHeadcounts, List.isEmpty_cons, Bool.false_eq_true, if_false,
          recalcChildren_eq]
        rw [getAt_node_cons, getAt_node_cons, List.get?_map]
        cases hgt : (c :: rest).get? i with
        | none => rfl
        | some x =>
          simp only [Option.map]
          have hmem : x ∈ c :: rest := List.get?_mem hgt
          rw [recalc_eq_of_ok x (hok' x hmem)]
    · simp only [updateHeadcountAndRollUp, updateNodeInTree, if_neg hid, updateChildren_eq]
      cases cs with
      | nil => simp [recalcParentHeadcounts, getAt]
      | cons c rest =>
        have hne : ¬(List.map (fun c => updateNodeInTree c nodeId fun n =>
            OrgNode.node { n.data with headcount := v } n.children) (c :: rest)).isEmpty = true := by
          simp
        simp only [recalcParentHeadcounts]
        rw [if_neg hne]
        simp only [recalcChildren_eq, List.map_map]
        rw [getAt_node_cons, getAt_node_cons, List.get?_map]
        cases hgt : (c :: rest).get? i with
        | none => rfl
        | some x =>
          simp only [Option.map, Function.comp]
          have hmem : x ∈ c :: rest := List.get?_mem hgt
          have hlack' : subtreeLacksId x p' nodeId = true := by
            have hget : getAt (OrgNode.node d (c :: rest)) (i :: p') = getAt x p' := by
              rw [getAt_node_cons, hgt]
            simp only [subtreeLacksId, hget] at hlack
            simp only [subtreeLacksId]
            exact hlack
          have hrec := ih x hmem (hok' x hmem) nodeId v p' hlack'
          rw [updateHeadcountAndRollUp] at hrec
          rw [hrec]

/-- Claim C3 counterexample: the claim fails as stated on a tree that
violates the rollup invariant. In brokenTree the edited node a is a
leaf, the position of inner node b holds no node with id a, yet editing
a changes the headcount of b from 5 to 2. -/
theorem C3_counterexample :
    isLeafIdB brokenTree "a" = true ∧
    subtreeLacksId brokenTree [1] "a" = true ∧
    headcountAt brokenTree [1] = some 5 ∧
    headcountAt (updateHeadcountAndRollUp brokenTree "a" 7) [1] = some 2 := by
  decide

/-- Claim C3 (amended with the rollup invariant as precondition): on a
tree whose stored headcounts satisfy the rollup invariant, editing a
leaf by id leaves every subtree that does not contain that id
unchanged, so only the edited leaf and its ancestors can change. -/
theorem C3_leaf_edit_local (t : OrgNode) (nodeId : String) (v : Int) (p : List Nat)
    (hok : rolledUpOkB t = true) (hleaf : isLeafIdB t nodeId = true)
    (hlack : subtreeLacksId t p nodeId = true) :
    getAt (updateHeadcountAndRollUp t nodeId v) p = getAt t p :=
  getAt_update_of_ok t hok nodeId v p hlack

/-- Witness for the amended C3 on the sample tree. -/
theorem C3_leaf_edit_local_witness :
    (rolledUpOkB sampleTree = true ∧ isLeafIdB sampleTree "a" = true ∧
      subtreeLacksId sampleTree [1] "a" = true) ∧
    getAt (updateHeadcountAndRollUp sampleTree "a" 7) [1] = getAt sampleTree [1] :=
  ⟨⟨by decide, by decide, by decide⟩,
    C3_leaf_edit_local sampleTree "a" 7 [1] (by decide) (by decide) (by decide)⟩

/-! Claim C4: validated-capacity rollup against the spec description. -/

theorem vcFold_eq : ∀ (cs : List OrgNode) (total : Int) (hasAny : Bool),
    vcFold cs total hasAny =
      (total + ((cs.map getRolledUpValidatedCapacity).filterMap (fun x => x)).sum,
        hasAny || (cs.map getRolledUpValidatedCapacity).any Option.isSome) := by
  intro cs
  induction cs with
  | nil => intro total hasAny; simp [vcFold]
  | cons c rest ih =>
    intro total hasAny
    cases hc : getRolledUpValidatedCapacity c with
    | some v =>
      have hfm : List.filterMap (fun x => x) (some v :: rest.map getRolledUpValidatedCapacity) =
          v :: List.filterMap (fun x => x) (rest.map getRolledUpValidatedCapacity) := by simp
      simp only [vcFold, hc, ih, List.map_cons, hfm, List.sum_cons, List.any_cons,
        Option.isSome_some, Bool.true_or, Bool.or_true, Prod.mk.injEq]
      constructor
      · ring
      · trivial
    | none =>
      have hfm : List.filterMap (fun x => x) (none :: rest.map getRolledUpValidatedCapacity) =
          List.filterMap (fun x => x) (rest.map getRolledUpValidatedCapacity) := by simp
      simp only [vcFold, hc, ih, List.map_cons, hfm, List.any_cons,
        Option.isSome_none, Bool.false_or]

theorem leafCapsList_eq (cs : List OrgNode) :
    leafCapsList cs = (cs.map leafCaps).flatten := by
  induction cs with
  | nil => simp [leafCapsList]
  | cons c rest ih => simp [leafCapsList, ih]

theorem vc_spec_list : ∀ cs : List OrgNode,
    (∀ c ∈ cs, getRolledUpValidatedCapacity c = vcRollupSpec c) →
    ((cs.map getRolledUpValidatedCapacity).filterMap (fun x => x)).sum =
      ((leafCapsList cs).filterMap (fun x => x)).sum ∧
    ((cs.map getRolledUpValidatedCapacity).any Option.isSome =
      !((leafCapsList cs).filterMap (fun x => x)).isEmpty) := by
  intro cs
  induction cs with
  | nil => intro h; simp [leafCapsList]
  | cons c rest ih =>
    intro h
    have hc := h c (List.mem_cons_self c rest)
    have ihr := ih (fun x hx => h x (List.mem_cons_of_mem c hx))
    have hlist : leafCapsList (c :: rest) = leafCaps c ++ leafCapsList rest := rfl
    rw [hlist]
    rw [List.filterMap_append]
    cases hA : ((leafCaps c).filterMap (fun x => x)).isEmpty with
    | true =>
      have hAnil : (leafCaps c).filterMap (fun x => x) = [] := by
        rwa [List.isEmpty_eq_true] at hA
      have hcnone : getRolledUpValidatedCapacity c = none := by
        rw [hc]; simp [vcRollupSpec, hAnil]
      simp only [List.map_cons, hcnone, List.filterMap_cons_none, List.any_cons,
        Option.isSome_none, Bool.false_or, hAnil, List.nil_append]
      exact ihr
    | false =>
      have hAne : ¬((leafCaps c).filterMap (fun x => x)).isEmpty = true := by
        rw [hA]; exact Bool.false_ne_true
      have hcsome : getRolledUpValidatedCapacity c =
          some ((leafCaps c).filterMap (fun x => x)).sum := by
        rw [hc]; simp [vcRollupSpec, hAne]
      have hfm : List.filterMap (fun x => x)
          (some ((leafCaps c).filterMap (fun x => x)).sum ::
            rest.map getRolledUpValidatedCapacity) =
          ((leafCaps c).filterMap (fun x => x)).sum ::
            List.filterMap (fun x => x) (rest.map getRolledUpValidatedCapacity) := by simp
      have happ : (((leafCaps c).filterMap (fun x => x)) ++
          ((leafCapsList rest).filterMap (fun x => x))).isEmpty = false := by
        cases hcase : (leafCaps c).filterMap (fun x => x) with
        | nil => rw [hcase] at hA; simp at hA
        | cons a as => simp
      simp only [List.map_cons, hcsome, hfm, List.sum_cons, List.any_cons,
        Option.isSome_some, Bool.true_or, List.sum_append, ihr.1, happ, Bool.not_false]
      constructor
      · trivial
      · trivial

/-- Claim C4: getRolledUpValidatedCapacity agrees with the spec-side
rollup on every tree: unset exactly when every descendant leaf is
unset, otherwise the sum of the non-unset descendant leaf values. In
particular one leaf set to zero among unset leaves yields a set zero. -/
theorem C4_validated_capacity_rollup (t : OrgNode) :
    getRolledUpValidatedCapacity t = vcRollupSpec t := by
  induction t using orgnode_ind with
  | _ d cs ih =>
    cases cs with
    | nil =>
      cases hv : d.validatedCapacity with
      | none => simp [getRolledUpValidatedCapacity, vcRollupSpec, leafCaps, hv]
      | some a => simp [getRolledUpValidatedCapacity, vcRollupSpec, leafCaps, hv]
    | cons c rest =>
      have hl := vc_spec_list (c :: rest) ih
      have hlc : leafCaps (OrgNode.node d (c :: rest)) = leafCapsList (c :: rest) := by
        simp [leafCaps]
      simp only [getRolledUpValidatedCapacity, List.isEmpty_cons, Bool.false_eq_true, if_false]
      rw [vcFold_eq]
      simp only [zero_add, hl.1, hl.2]
      cases hE : ((leafCapsList (c :: rest)).filterMap (fun x => x)).isEmpty with
      | true => simp [vcRollupSpec, hlc, hE]
      | false => simp [vcRollupSpec, hlc, hE]

/-! Claim C6: degenerate allocation. -/

/-- Claim C6: with zero total weight, handleOptimize performs no
allocation and leaves the state untouched, in particular every unit
stays as it was and the optimized flag stays false; with nonzero total
weight the allocation runs and sets the optimized and banner flags, so
the two outcomes are distinct. -/
theorem C6_degenerate_allocation (aeInfo : String → Option ℚ) (st : TPState) :
    (totalCapacityOf aeInfo st = 0 → handleOptimize aeInfo st = st) ∧
    (totalCapacityOf aeInfo st ≠ 0 → (handleOptimize aeInfo st).optimized = true ∧
      (handleOptimize aeInfo st).showBanner = true) := by
  constructor
  · intro h
    simp only [totalCapacityOf, totalOf] at h
    simp [handleOptimize, h]
  · intro h
    simp only [totalCapacityOf, totalOf] at h
    simp [handleOptimize, h]

/-- Witness for C6 at a concrete state with no capacities. -/
theorem C6_degenerate_allocation_witness :
    totalCapacityOf sampleAeInfo sampleState = 0 ∧
    handleOptimize sampleAeInfo sampleState = sampleState := by
  have h : totalCapacityOf sampleAeInfo sampleState = 0 := by
    simp [totalCapacityOf, totalOf, aeCapacities, sampleState, sampleRows, sampleAeInfo]
  exact ⟨h, (C6_degenerate_allocation sampleAeInfo sampleState).1 h⟩

/-! Allocator: arithmetic facts about shares, floors and leftover. -/

theorem foldl_add_eq_sum {M : Type} [AddCommMonoid M] : ∀ (l : List M) (a : M),
    l.foldl (· + ·) a = a + l.sum := by
  intro l
  induction l with
  | nil => intro a; simp
  | cons x xs ih => intro a; simp [ih, add_assoc]

theorem totalOf_eq (w : List ℚ) : totalOf w = w.sum := by
  simp [totalOf, foldl_add_eq_sum]

theorem sum_map_share (l : List ℚ) (T : ℚ) (p : ℚ) :
    (l.map (fun c => c / T * p)).sum = l.sum / T * p := by
  induction l with
  | nil => simp
  | cons x xs ih =>
    simp only [List.map_cons, List.sum_cons, ih]
    ring

theorem rawShares_sum (w : List ℚ) (pool : Int) (h : totalOf w ≠ 0) :
    (rawShares w pool).sum = (pool : ℚ) := by
  rw [rawShares, sum_map_share, ← totalOf_eq, div_self h, one_mul]

theorem rawShares_length (w : List ℚ) (pool : Int) :
    (rawShares w pool).length = w.length := by
  simp [rawShares]

theorem flooredShares_length (w : List ℚ) (pool : Int) :
    (flooredShares w pool).length = w.length := by
  simp [flooredShares, rawShares_length]

theorem floor_map_sum_le (l : List ℚ) :
    (((l.map (fun u => ⌊u⌋)).sum : Int) : ℚ) ≤ l.sum := by
  induction l with
  | nil => simp
  | cons x xs ih =>
    simp only [List.map_cons, List.sum_cons, Int.cast_add]
    exact add_le_add (Int.floor_le x) ih

theorem leftover_eq (w : List ℚ) (pool : Int) :
    leftoverOf w pool = pool - (flooredShares w pool).sum := by
  simp [leftoverOf, foldl_add_eq_sum]

theorem leftover_nonneg (w : List ℚ) (pool : Int) (h : totalOf w ≠ 0) :
    0 ≤ leftoverOf w pool := by
  rw [leftover_eq]
  have hle : (((flooredShares w pool).sum : Int) : ℚ) ≤ (pool : ℚ) := by
    calc (((flooredShares w pool).sum : Int) : ℚ)
        ≤ (rawShares w pool).sum := floor_map_sum_le (rawShares w pool)
      _ = (pool : ℚ) := rawShares_sum w pool h
  have h2 : (flooredShares w pool).sum ≤ pool := by exact_mod_cast hle
  omega

theorem fract_map_sum (l : List ℚ) :
    (l.map Int.fract).sum = l.sum - (((l.map (fun u => ⌊u⌋)).sum : Int) : ℚ) := by
  induction l with
  | nil => simp
  | cons x xs ih =>
    simp only [List.map_cons, List.sum_cons, ih, Int.fract]
    push_cast
    ring

theorem sum_lt_length (l : List ℚ) (hne : l ≠ []) (h : ∀ x ∈ l, x < 1) :
    l.sum < (l.length : ℚ) := by
  induction l with
  | nil => exact absurd rfl hne
  | cons x xs ih =>
    cases xs with
    | nil => simpa using h x (List.mem_cons_self x [])
    | cons y ys =>
      have h1 : x < 1 := h x (List.mem_cons_self x (y :: ys))
      have h2 : (y :: ys).sum < ((y :: ys).length : ℚ) :=
        ih (List.cons_ne_nil y ys) (fun z hz => h z (List.mem_cons_of_mem x hz))
      simp only [List.sum_cons, List.length_cons] at h2 ⊢
      push_cast at h2 ⊢
      linarith

theorem leftover_lt_length (w : List ℚ) (pool : Int) (h : totalOf w ≠ 0) :
    leftoverOf w pool < (w.length : Int) := by
  have hwne : w ≠ [] := by
    intro hw
    rw [hw] at h
    simp [totalOf] at h
  have hrne : rawShares w pool ≠ [] := by
    simp [rawShares, hwne]
  have hsum : ((rawShares w pool).map Int.fract).sum =
      (pool : ℚ) - (((flooredShares w pool).sum : Int) : ℚ) := by
    rw [fract_map_sum, rawShares_sum w pool h, flooredShares]
  have hlt : ((rawShares w pool).map Int.fract).sum <
      (((rawShares w pool).map Int.fract).length : ℚ) := by
    apply sum_lt_length
    · simp [hrne]
    · intro x hx
      obtain ⟨u, _, rfl⟩ := List.mem_map.mp hx
      exact Int.fract_lt_one u
  rw [hsum] at hlt
  have hlen : (((rawShares w pool).map Int.fract).length : ℚ) = ((w.length : Int) : ℚ) := by
    simp [rawShares_length]
  rw [hlen] at hlt
  have hcast : ((leftoverOf w pool : Int) : ℚ) < ((w.length : Int) : ℚ) := by
    rw [leftover_eq]
    push_cast
    push_cast at hlt
    linarith
  exact_mod_cast hcast

/-! Allocator: the fractionals array and its index structure. -/

theorem fracsFrom_length : ∀ (l : List ℚ) (i : Nat), (fracsFrom i l).length = l.length := by
  intro l
  induction l with
  | nil => intro i; simp [fracsFrom]
  | cons u us ih => intro i; simp [fracsFrom, ih]

theorem fracsFrom_get? : ∀ (l : List ℚ) (i j : Nat),
    (fracsFrom i l).get? j = (l.get? j).map (fun u => (i + j, u - (⌊u⌋ : ℚ))) := by
  intro l
  induction l with
  | nil => intro i j; simp [fracsFrom]
  | cons u us ih =>
    intro i j
    cases j with
    | zero => simp [fracsFrom]
    | succ j' =>
      have harith : i + 1 + j' = i + (j' + 1) := by omega
      simp only [fracsFrom, List.get?_cons_succ, ih (i + 1) j', harith]

theorem fracsFrom_map_fst : ∀ (l : List ℚ) (i : Nat),
    (fracsFrom i l).map Prod.fst = List.range' i l.length := by
  intro l
  induction l with
  | nil => intro i; simp [fracsFrom]
  | cons u us ih =>
    intro i
    rw [fracsFrom, List.map_cons, List.length_cons, List.range'_succ, ih]

theorem fracsFrom_map_snd : ∀ (l : List ℚ) (i : Nat),
    (fracsFrom i l).map Prod.snd = l.map Int.fract := by
  intro l
  induction l with
  | nil => intro i; simp [fracsFrom]
  | cons u us ih =>
    intro i
    rw [fracsFrom, List.map_cons, List.map_cons, ih (i + 1)]
    congr 1

theorem fracsOf_length (w : List ℚ) (pool : Int) :
    (fracsOf w pool).length = w.length := by
  simp [fracsOf, fracsFrom_length, rawShares_length]

theorem mem_fracsOf_snd (w : List ℚ) (pool : Int) (e : Nat × ℚ)
    (he : e ∈ fracsOf w pool) : 0 ≤ e.2 ∧ e.2 < 1 := by
  have hsnd : e.2 ∈ (fracsOf w pool).map Prod.snd := List.mem_map_of_mem Prod.snd he
  rw [fracsOf, fracsFrom_map_snd] at hsnd
  obtain ⟨u, _, hue⟩ := List.mem_map.mp hsnd
  rw [← hue]
  exact ⟨Int.fract_nonneg u, Int.fract_lt_one u⟩

theorem fracsOf_snd_sum (w : List ℚ) (pool : Int) (h : totalOf w ≠ 0) :
    ((fracsOf w pool).map Prod.snd).sum = ((leftoverOf w pool : Int) : ℚ) := by
  rw [fracsOf, fracsFrom_map_snd, fract_map_sum, rawShares_sum w pool h, leftover_eq]
  push_cast
  rw [flooredShares]

/-! Allocator: the increment loop. -/

theorem bump_length : ∀ (l : List Int) (i : Nat), (bump l i).length = l.length := by
  intro l
  induction l with
  | nil => intro i; simp [bump]
  | cons x xs ih =>
    intro i
    cases i with
    | zero => simp [bump]
    | succ i' => simp [bump, ih]

theorem bump_sum : ∀ (l : List Int) (i : Nat), i < l.length →
    (bump l i).sum = l.sum + 1 := by
  intro l
  induction l with
  | nil => intro i hi; simp at hi
  | cons x xs ih =>
    intro i hi
    cases i with
    | zero => simp [bump]; ring
    | succ i' =>
      simp only [bump, List.sum_cons, ih i' (by simpa using hi)]
      ring

theorem foldl_bump_length : ∀ (ws : List Nat) (l : List Int),
    (ws.foldl bump l).length = l.length := by
  intro ws
  induction ws with
  | nil => intro l; simp
  | cons i ws' ih => intro l; simp [List.foldl_cons, ih, bump_length]

theorem foldl_bump_sum : ∀ (ws : List Nat) (l : List Int),
    (∀ i ∈ ws, i < l.length) → (ws.foldl bump l).sum = l.sum + (ws.length : Int) := by
  intro ws
  induction ws with
  | nil => intro l _; simp
  | cons i ws' ih =>
    intro l hbound
    have hi : i < l.length := hbound i (List.mem_cons_self i ws')
    have hrest : ∀ j ∈ ws', j < (bump l i).length := by
      intro j hj
      rw [bump_length]
      exact hbound j (List.mem_cons_of_mem i hj)
    simp only [List.foldl_cons, ih (bump l i) hrest, bump_sum l i hi, List.length_cons]
    push_cast
    ring

/-! Allocator: the sorted fractionals and the winner indices. -/

theorem sortedFracs_perm (w : List ℚ) (pool : Int) :
    (sortedFracsOf w pool).Perm (fracsOf w pool) :=
  List.perm_insertionSort fracGE (fracsOf w pool)

theorem sortedFracs_length (w : List ℚ) (pool : Int) :
    (sortedFracsOf w pool).length = w.length := by
  rw [(sortedFracs_perm w pool).length_eq, fracsOf_length]

theorem leftover_toNat_le (w : List ℚ) (pool : Int) (h : totalOf w ≠ 0) :
    (leftoverOf w pool).toNat < w.length := by
  have h1 := leftover_lt_length w pool h
  have h2 := leftover_nonneg w pool h
  omega

theorem winners_length (w : List ℚ) (pool : Int) (h : totalOf w ≠ 0) :
    (winnersOf w pool).length = (leftoverOf w pool).toNat := by
  rw [winnersOf, List.length_map, List.length_take, sortedFracs_length]
  have := leftover_toNat_le w pool h
  omega

theorem winners_bound (w : List ℚ) (pool : Int) :
    ∀ i ∈ winnersOf w pool, i < w.length := by
  intro i hi
  rw [winnersOf] at hi
  obtain ⟨e, he, rfl⟩ := List.mem_map.mp hi
  have heS : e ∈ sortedFracsOf w pool :=
    List.mem_of_mem_take he
  have hef : e ∈ fracsOf w pool := (sortedFracs_perm w pool).mem_iff.mp heS
  have hfst : e.1 ∈ (fracsOf w pool).map Prod.fst := List.mem_map_of_mem Prod.fst hef
  rw [fracsOf, fracsFrom_map_fst, rawShares_length] at hfst
  rw [List.mem_range'] at hfst
  obtain ⟨j, hj, hje⟩ := hfst
  omega

theorem winners_nodup (w : List ℚ) (pool : Int) : (winnersOf w pool).Nodup := by
  rw [winnersOf, List.map_take]
  apply List.Nodup.sublist (List.take_sublist _ _)
  have hperm : ((sortedFracsOf w pool).map Prod.fst).Perm ((fracsOf w pool).map Prod.fst) :=
    (sortedFracs_perm w pool).map Prod.fst
  have hnd : ((fracsOf w pool).map Prod.fst).Nodup := by
    rw [fracsOf, fracsFrom_map_fst]
    exact List.nodup_range' _ _
  exact hperm.symm.nodup hnd

theorem alloc_sum (w : List ℚ) (pool : Int) (h : totalOf w ≠ 0) :
    (alloc w pool).sum = pool := by
  rw [alloc]
  have hbound : ∀ i ∈ winnersOf w pool, i < (flooredShares w pool).length := by
    rw [flooredShares_length]
    exact winners_bound w pool
  rw [foldl_bump_sum (winnersOf w pool) (flooredShares w pool) hbound]
  have hlen : ((winnersOf w pool).length : Int) = leftoverOf w pool := by
    rw [winners_length w pool h]
    exact Int.toNat_of_nonneg (leftover_nonneg w pool h)
  rw [hlen, leftover_eq]
  ring

/-- Claim C2: for any weight list with positive total, the unit
allocations for the pool of 1000 and the TAM allocations for the pool
of 12000 produced by the handleOptimize rounding procedure sum exactly
to their pools. -/
theorem C2_allocator_exact_sums (w : List ℚ) (h : 0 < totalOf w) :
    (alloc w 1000).sum = 1000 ∧ (alloc w 12000).sum = 12000 :=
  ⟨alloc_sum w 1000 (ne_of_gt h), alloc_sum w 12000 (ne_of_gt h)⟩

/-- Witness for C2 at a concrete weight list. -/
theorem C2_allocator_exact_sums_witness :
    0 < totalOf [(1 : ℚ), 2, 3] ∧
    ((alloc [(1 : ℚ), 2, 3] 1000).sum = 1000 ∧ (alloc [(1 : ℚ), 2, 3] 12000).sum = 12000) :=
  ⟨by norm_num [totalOf], C2_allocator_exact_sums [(1 : ℚ), 2, 3] (by norm_num [totalOf])⟩

/-! Allocator: strict priority order realised by the stable sort. -/

theorem precB_iff (a b : Nat × ℚ) :
    precB a b = true ↔ b.2 < a.2 ∨ (a.2 = b.2 ∧ a.1 < b.1) := by
  simp [precB]

theorem precB_irrefl (a : Nat × ℚ) : precB a a = false := by
  simp [precB]

theorem precB_asymm (a b : Nat × ℚ) (h : precB a b = true) : ¬precB b a = true := by
  rw [precB_iff] at h ⊢
  rcases h with hlt | ⟨heq, hidx⟩
  · rintro (hlt' | ⟨heq', _⟩)
    · exact absurd hlt' (lt_asymm hlt)
    · rw [heq'] at hlt; exact lt_irrefl _ hlt
  · rintro (hlt' | ⟨_, hidx'⟩)
    · rw [heq] at hlt'; exact lt_irrefl _ hlt'
    · omega

theorem sortedFracs_pairwise (w : List ℚ) (pool : Int) :
    (sortedFracsOf w pool).Pairwise fracGE :=
  List.sorted_insertionSort fracGE (fracsOf w pool)

theorem fracsOf_pairwise_fst (w : List ℚ) (pool : Int) :
    (fracsOf w pool).Pairwise (fun a b => a.1 < b.1) := by
  have h : ((fracsOf w pool).map Prod.fst).Pairwise (· < ·) := by
    rw [fracsOf, fracsFrom_map_fst]
    exact List.pairwise_lt_range' _ _ 1
  exact List.pairwise_map.mp h

theorem filter_snd_sorted_eq (w : List ℚ) (pool : Int) (q : ℚ) :
    (sortedFracsOf w pool).filter (fun e => decide (e.2 = q)) =
      (fracsOf w pool).filter (fun e => decide (e.2 = q)) := by
  have hpair : ((fracsOf w pool).filter (fun e => decide (e.2 = q))).Pairwise fracGE := by
    apply List.pairwise_of_forall_mem_list
    intro a ha b hb
    have ha2 : a.2 = q := of_decide_eq_true (List.mem_filter.mp ha).2
    have hb2 : b.2 = q := of_decide_eq_true (List.mem_filter.mp hb).2
    show b.2 ≤ a.2
    rw [ha2, hb2]
  have hsub : ((fracsOf w pool).filter (fun e => decide (e.2 = q))).Sublist
      (sortedFracsOf w pool) :=
    List.sublist_insertionSort hpair (List.filter_sublist _)
  have hsub2 : ((fracsOf w pool).filter (fun e => decide (e.2 = q))).Sublist
      ((sortedFracsOf w pool).filter (fun e => decide (e.2 = q))) := by
    have hself : ((fracsOf w pool).filter (fun e => decide (e.2 = q))).filter
        (fun e => decide (e.2 = q)) = (fracsOf w pool).filter (fun e => decide (e.2 = q)) := by
      rw [List.filter_eq_self]
      intro a ha
      exact (List.mem_filter.mp ha).2
    have h3 := List.Sublist.filter (fun e : Nat × ℚ => decide (e.2 = q)) hsub
    rwa [hself] at h3
  have hperm : ((sortedFracsOf w pool).filter (fun e => decide (e.2 = q))).Perm
      ((fracsOf w pool).filter (fun e => decide (e.2 = q))) :=
    (sortedFracs_perm w pool).filter _
  exact (hsub2.eq_of_length hperm.length_eq.symm).symm

theorem pairwise_prec_of (S : List (Nat × ℚ))
    (h1 : S.Pairwise fracGE)
    (h2 : ∀ q : ℚ, (S.filter (fun e => decide (e.2 = q))).Pairwise (fun a b => a.1 < b.1)) :
    S.Pairwise (fun a b => precB a b = true) := by
  induction S with
  | nil => exact List.Pairwise.nil
  | cons a l ih =>
    rw [List.pairwise_cons] at h1 ⊢
    obtain ⟨ha, h1'⟩ := h1
    constructor
    · intro b hb
      have hge : fracGE a b := ha b hb
      rw [precB_iff]
      rcases lt_or_eq_of_le hge with hlt | heq
      · exact Or.inl hlt
      · refine Or.inr ⟨heq.symm, ?_⟩
        have h2a := h2 a.2
        have hfc : List.filter (fun e : Nat × ℚ => decide (e.2 = a.2)) (a :: l) =
            a :: List.filter (fun e : Nat × ℚ => decide (e.2 = a.2)) l :=
          List.filter_cons_of_pos (by simp)
        rw [hfc, List.pairwise_cons] at h2a
        apply h2a.1
        rw [List.mem_filter]
        exact ⟨hb, by rw [← heq]; simp⟩
    · apply ih h1'
      intro q
      have hsub : (l.filter (fun e => decide (e.2 = q))).Sublist
          ((a :: l).filter (fun e => decide (e.2 = q))) := by
        rw [List.filter_cons]
        split
        · exact List.sublist_cons_self _ _
        · exact List.Sublist.refl _
      exact (h2 q).sublist hsub

theorem sorted_pairwise_prec (w : List ℚ) (pool : Int) :
    (sortedFracsOf w pool).Pairwise (fun a b => precB a b = true) := by
  apply pairwise_prec_of _ (sortedFracs_pairwise w pool)
  intro q
  rw [filter_snd_sorted_eq]
  exact (fracsOf_pairwise_fst w pool).sublist (List.filter_sublist _)

/-! Allocator: membership in the winning prefix versus the count of
entries that beat an entry. -/

theorem countP_lt_of_mem_take : ∀ (S : List (Nat × ℚ)) (k : Nat) (e : Nat × ℚ),
    S.Pairwise (fun a b => precB a b = true) → e ∈ S.take k →
    S.countP (fun x => precB x e) < k := by
  intro S
  induction S with
  | nil => intro k e _ he; simp at he
  | cons x S' ih =>
    intro k e hp he
    cases k with
    | zero => simp at he
    | succ k' =>
      rw [List.pairwise_cons] at hp
      obtain ⟨hx, hp'⟩ := hp
      rw [List.take_succ_cons] at he
      rcases List.mem_cons.mp he with rfl | he'
      · have hzero : S'.countP (fun y => precB y e) = 0 := by
          rw [List.countP_eq_zero]
          intro y hy
          exact precB_asymm e y (hx y hy)
        rw [List.countP_cons, hzero, precB_irrefl]
        simp
      · have hlt := ih k' e hp' he'
        rw [List.countP_cons]
        have hone : (if precB x e = true then 1 else 0) ≤ 1 := by split <;> omega
        omega

theorem mem_take_of_countP_lt : ∀ (S : List (Nat × ℚ)) (k : Nat) (e : Nat × ℚ),
    S.Pairwise (fun a b => precB a b = true) → e ∈ S →
    S.countP (fun x => precB x e) < k → e ∈ S.take k := by
  intro S
  induction S with
  | nil => intro k e _ he _; simp at he
  | cons x S' ih =>
    intro k e hp he hc
    rw [List.pairwise_cons] at hp
    obtain ⟨hx, hp'⟩ := hp
    cases k with
    | zero => exact absurd hc (Nat.not_lt_zero _)
    | succ k' =>
      rw [List.take_succ_cons]
      rcases List.mem_cons.mp he with rfl | he'
      · exact List.mem_cons_self _ _
      · apply List.mem_cons_of_mem
        apply ih k' e hp' he'
        have hxe : precB x e = true := hx e he'
        rw [List.countP_cons, hxe] at hc
        simp at hc
        omega

/-! Allocator: the entry of the fractionals array at a given index. -/

theorem get?_eq_getD_some {α : Type} (l : List α) (i : Nat) (a d : α)
    (h : l.get? i = some a) : l.getD i d = a := by
  rw [List.getD_eq_getElem?_getD, ← List.get?_eq_getElem?, h]
  rfl

theorem list_get?_getD (w : List ℚ) (i : Nat) (hi : i < w.length) :
    w.get? i = some (w.getD i 0) := by
  rw [List.getD_eq_getElem?_getD, ← List.get?_eq_getElem?]
  cases hx : w.get? i with
  | none =>
    rw [List.get?_eq_getElem?] at hx
    have := List.getElem?_eq_none_iff.mp hx
    omega
  | some a => rfl

theorem rawShares_get? (w : List ℚ) (pool : Int) (i : Nat) (hi : i < w.length) :
    (rawShares w pool).get? i = some ((w.getD i 0) / totalOf w * (pool : ℚ)) := by
  rw [rawShares, List.get?_map, list_get?_getD w i hi]
  rfl

theorem fracsOf_get? (w : List ℚ) (pool : Int) (i : Nat) (hi : i < w.length) :
    (fracsOf w pool).get? i =
      some (i, Int.fract ((w.getD i 0) / totalOf w * (pool : ℚ))) := by
  rw [fracsOf, fracsFrom_get?, rawShares_get? w pool i hi]
  simp only [Option.map_some', Nat.zero_add, Int.fract]

theorem mem_fracsOf_eq (w : List ℚ) (pool : Int) (e : Nat × ℚ)
    (he : e ∈ fracsOf w pool) :
    e.1 < w.length ∧
    e = (e.1, Int.fract ((w.getD e.1 0) / totalOf w * (pool : ℚ))) := by
  obtain ⟨j, hj⟩ := List.get?_of_mem he
  have hjlen : j < w.length := by
    have h1 : j < (fracsOf w pool).length := (List.get?_eq_some.mp hj).1
    rwa [fracsOf_length] at h1
  rw [fracsOf_get? w pool j hjlen] at hj
  have hj' := Option.some.inj hj
  have hfst : e.1 = j := by rw [← hj']
  constructor
  · rw [hfst]; exact hjlen
  · rw [hfst, ← hj']

theorem fracs_entry_mem (w : List ℚ) (pool : Int) (i : Nat) (hi : i < w.length) :
    (i, Int.fract ((w.getD i 0) / totalOf w * (pool : ℚ))) ∈ fracsOf w pool := by
  have h := fracsOf_get? w pool i hi
  exact List.get?_mem h

/-- An index wins an extra unit exactly when fewer than leftover entries
beat its fractional remainder under the priority order (larger
remainder first, then smaller input index). -/
theorem mem_winners_iff (w : List ℚ) (pool : Int) (i : Nat) (hi : i < w.length) :
    i ∈ winnersOf w pool ↔
      specWinsB (fracsOf w pool) (leftoverOf w pool).toNat
        (i, Int.fract ((w.getD i 0) / totalOf w * (pool : ℚ))) = true := by
  have hperm := sortedFracs_perm w pool
  have hpair := sorted_pairwise_prec w pool
  have hcount : (sortedFracsOf w pool).countP
      (fun x => precB x (i, Int.fract ((w.getD i 0) / totalOf w * (pool : ℚ)))) =
      (fracsOf w pool).countP
      (fun x => precB x (i, Int.fract ((w.getD i 0) / totalOf w * (pool : ℚ)))) :=
    hperm.countP_eq _
  constructor
  · intro hwin
    rw [winnersOf] at hwin
    obtain ⟨e, he, hfst⟩ := List.mem_map.mp hwin
    have heF : e ∈ fracsOf w pool := hperm.mem_iff.mp (List.mem_of_mem_take he)
    have hee := (mem_fracsOf_eq w pool e heF).2
    rw [hfst] at hee
    rw [specWinsB]
    apply decide_eq_true
    rw [← hcount]
    apply countP_lt_of_mem_take _ _ _ hpair
    rw [hee] at he
    exact he
  · intro hspec
    rw [specWinsB] at hspec
    have hlt := of_decide_eq_true hspec
    rw [← hcount] at hlt
    have hmemS : (i, Int.fract ((w.getD i 0) / totalOf w * (pool : ℚ))) ∈
        sortedFracsOf w pool :=
      hperm.mem_iff.mpr (fracs_entry_mem w pool i hi)
    have htake := mem_take_of_countP_lt _ _ _ hpair hmemS hlt
    rw [winnersOf]
    exact List.mem_map_of_mem Prod.fst htake

/-! Allocator: entrywise description of the final allocation. -/

theorem bump_getD_self : ∀ (l : List Int) (i : Nat), i < l.length →
    (bump l i).getD i 0 = l.getD i 0 + 1 := by
  intro l
  induction l with
  | nil => intro i hi; simp at hi
  | cons x xs ih =>
    intro i hi
    cases i with
    | zero => simp [bump]
    | succ i' =>
      simp only [bump, List.getD_cons_succ]
      exact ih i' (by simpa using hi)

theorem bump_getD_ne : ∀ (l : List Int) (i j : Nat), j ≠ i →
    (bump l i).getD j 0 = l.getD j 0 := by
  intro l
  induction l with
  | nil => intro i j _; simp [bump]
  | cons x xs ih =>
    intro i j hne
    cases i with
    | zero =>
      cases j with
      | zero => exact absurd rfl hne
      | succ j' => simp [bump]
    | succ i' =>
      cases j with
      | zero => simp [bump]
      | succ j' =>
        simp only [bump, List.getD_cons_succ]
        exact ih i' j' (fun hj => hne (by rw [hj]))

theorem foldl_bump_getD : ∀ (ws : List Nat) (l : List Int) (j : Nat),
    ws.Nodup → (∀ i ∈ ws, i < l.length) → j < l.length →
    (ws.foldl bump l).getD j 0 = l.getD j 0 + (if j ∈ ws then 1 else 0) := by
  intro ws
  induction ws with
  | nil => intro l j _ _ _; simp
  | cons i ws' ih =>
    intro l j hnd hbound hj
    have hnotin : i ∉ ws' := (List.nodup_cons.mp hnd).1
    have hnd' : ws'.Nodup := (List.nodup_cons.mp hnd).2
    have hbound' : ∀ x ∈ ws', x < (bump l i).length := by
      intro x hx
      rw [bump_length]
      exact hbound x (List.mem_cons_of_mem i hx)
    have hj' : j < (bump l i).length := by rw [bump_length]; exact hj
    rw [List.foldl_cons, ih (bump l i) j hnd' hbound' hj']
    by_cases hji : j = i
    · have hjnot : j ∉ ws' := by rw [hji]; exact hnotin
      rw [hji, bump_getD_self l i (hbound i (List.mem_cons_self i ws'))]
      simp [hnotin]
    · rw [bump_getD_ne l i j hji]
      have : (j ∈ i :: ws') ↔ (j ∈ ws') := by
        rw [List.mem_cons]
        exact or_iff_right hji
      by_cases hjw : j ∈ ws'
      · rw [if_pos hjw, if_pos (this.mpr hjw)]
      · rw [if_neg hjw, if_neg (fun hm => hjw (this.mp hm))]

theorem alloc_getD (w : List ℚ) (pool : Int) (i : Nat) (hi : i < w.length) :
    (alloc w pool).getD i 0 = (flooredShares w pool).getD i 0 +
      (if i ∈ winnersOf w pool then 1 else 0) := by
  rw [alloc]
  apply foldl_bump_getD _ _ _ (winners_nodup w pool)
  · rw [flooredShares_length]
    exact winners_bound w pool
  · rw [flooredShares_length]
    exact hi

theorem flooredShares_getD (w : List ℚ) (pool : Int) (i : Nat) (hi : i < w.length) :
    (flooredShares w pool).getD i 0 = ⌊(w.getD i 0) / totalOf w * (pool : ℚ)⌋ := by
  apply get?_eq_getD_some
  rw [flooredShares, List.get?_map, rawShares_get? w pool i hi]
  rfl

/-- Claim C5: the allocator computes for each pool the floors of the
exact proportional shares, then awards exactly leftover extra single
units, one to each of the entries with the largest fractional
remainders, ties between equal remainders going to the earlier input
index; the same procedure is applied to both pools independently, this
statement holding for every pool. -/
theorem C5_largest_remainder_rule (w : List ℚ) (pool : Int) (h : 0 < totalOf w) :
    (winnersOf w pool).length = (leftoverOf w pool).toNat ∧
    leftoverOf w pool = pool - (flooredShares w pool).sum ∧
    ∀ i, i < w.length →
      (alloc w pool).getD i 0 =
        ⌊(w.getD i 0) / totalOf w * (pool : ℚ)⌋ +
          (if specWinsB (fracsOf w pool) (leftoverOf w pool).toNat
              (i, Int.fract ((w.getD i 0) / totalOf w * (pool : ℚ))) = true
           then 1 else 0) := by
  refine ⟨winners_length w pool (ne_of_gt h), leftover_eq w pool, ?_⟩
  intro i hi
  rw [alloc_getD w pool i hi, flooredShares_getD w pool i hi]
  have hiff := mem_winners_iff w pool i hi
  by_cases hmem : i ∈ winnersOf w pool
  · rw [if_pos hmem, if_pos (hiff.mp hmem)]
  · rw [if_neg hmem, if_neg (fun hs => hmem (hiff.mpr hs))]

/-- Witness for C5 at a concrete weight list and pool. -/
theorem C5_largest_remainder_rule_witness :
    (0 < totalOf [(1 : ℚ), 1, 1] ∧ 0 < ([(1 : ℚ), 1, 1]).length) ∧
    ((winnersOf [(1 : ℚ), 1, 1] 1000).length = (leftoverOf [(1 : ℚ), 1, 1] 1000).toNat ∧
     leftoverOf [(1 : ℚ), 1, 1] 1000 = 1000 - (flooredShares [(1 : ℚ), 1, 1] 1000).sum ∧
     ∀ i, i < ([(1 : ℚ), 1, 1]).length →
       (alloc [(1 : ℚ), 1, 1] 1000).getD i 0 =
         ⌊(([(1 : ℚ), 1, 1]).getD i 0) / totalOf [(1 : ℚ), 1, 1] * ((1000 : Int) : ℚ)⌋ +
           (if specWinsB (fracsOf [(1 : ℚ), 1, 1] 1000) (leftoverOf [(1 : ℚ), 1, 1] 1000).toNat
               (i, Int.fract ((([(1 : ℚ), 1, 1]).getD i 0) / totalOf [(1 : ℚ), 1, 1] *
                 ((1000 : Int) : ℚ))) = true
            then 1 else 0)) :=
  ⟨⟨by norm_num [totalOf], by norm_num⟩,
    C5_largest_remainder_rule [(1 : ℚ), 1, 1] 1000 (by norm_num [totalOf])⟩

/-! Claim C9: proportionality bound. -/

theorem sum_lt_countP_pos : ∀ (l : List ℚ), (∀ x ∈ l, 0 ≤ x ∧ x < 1) →
    (l.countP (fun x => decide (0 < x)) = 0 → l.sum = 0) ∧
    (0 < l.countP (fun x => decide (0 < x)) →
      l.sum < (l.countP (fun x => decide (0 < x)) : ℚ)) := by
  intro l
  induction l with
  | nil =>
    intro _
    constructor
    · intro _; simp
    · intro hpos; simp at hpos
  | cons x xs ih =>
    intro hb
    have hx := hb x (List.mem_cons_self x xs)
    have ihx := ih (fun z hz => hb z (List.mem_cons_of_mem x hz))
    rw [List.countP_cons, List.sum_cons]
    by_cases hpos : 0 < x
    · rw [if_pos (decide_eq_true hpos)]
      constructor
      · intro h0; omega
      · intro _
        by_cases hc0 : xs.countP (fun y => decide (0 < y)) = 0
        · have hs0 := ihx.1 hc0
          rw [hs0, hc0]
          push_cast
          linarith [hx.2]
        · have hlt := ihx.2 (Nat.pos_of_ne_zero hc0)
          push_cast
          push_cast at hlt
          linarith [hx.2]
    · have hx0 : x = 0 := le_antisymm (not_lt.mp hpos) hx.1
      rw [if_neg (by simpa using hpos), Nat.add_zero, hx0, zero_add]
      exact ihx

theorem winners_fract_pos (w : List ℚ) (pool : Int) (h : totalOf w ≠ 0) :
    ∀ e ∈ (sortedFracsOf w pool).take (leftoverOf w pool).toNat, 0 < e.2 := by
  intro e he
  by_contra hnpos
  have heS : e ∈ sortedFracsOf w pool := List.mem_of_mem_take he
  have heF : e ∈ fracsOf w pool := (sortedFracs_perm w pool).mem_iff.mp heS
  have hbounds := mem_fracsOf_snd w pool e heF
  have he2 : e.2 = 0 := le_antisymm (not_lt.mp hnpos) hbounds.1
  have hcount := countP_lt_of_mem_take _ _ _ (sorted_pairwise_prec w pool) he
  have hcount' : (fracsOf w pool).countP (fun x => precB x e) <
      (leftoverOf w pool).toNat := by
    rw [← (sortedFracs_perm w pool).countP_eq]
    exact hcount
  have hPle : (fracsOf w pool).countP (fun x => decide (0 < x.2)) ≤
      (fracsOf w pool).countP (fun x => precB x e) := by
    apply List.countP_mono_left
    intro x hx hxpos
    have hxp : 0 < x.2 := of_decide_eq_true hxpos
    rw [precB_iff]
    left
    rw [he2]
    exact hxp
  have hPlt : (fracsOf w pool).countP (fun x => decide (0 < x.2)) <
      (leftoverOf w pool).toNat := lt_of_le_of_lt hPle hcount'
  have hmap : ((fracsOf w pool).map Prod.snd).countP (fun x => decide (0 < x)) =
      (fracsOf w pool).countP (fun x => decide (0 < x.2)) := by
    rw [List.countP_map]
    rfl
  have hball : ∀ x ∈ (fracsOf w pool).map Prod.snd, 0 ≤ x ∧ x < 1 := by
    intro x hx
    obtain ⟨y, hy, hyx⟩ := List.mem_map.mp hx
    rw [← hyx]
    exact mem_fracsOf_snd w pool y hy
  have hsum := fracsOf_snd_sum w pool h
  have hkey := sum_lt_countP_pos ((fracsOf w pool).map Prod.snd) hball
  by_cases hP0 : ((fracsOf w pool).map Prod.snd).countP (fun x => decide (0 < x)) = 0
  · have h0 := hkey.1 hP0
    rw [hsum] at h0
    have hl0 : leftoverOf w pool = 0 := by exact_mod_cast h0
    rw [hl0] at he
    simp at he
  · have hposc := hkey.2 (Nat.pos_of_ne_zero hP0)
    rw [hsum, hmap] at hposc
    have hlift : leftoverOf w pool <
        ((fracsOf w pool).countP (fun x => decide (0 < x.2)) : Int) := by
      exact_mod_cast hposc
    have hnn := leftover_nonneg w pool h
    omega

/-- Claim C9: for every weight list with positive total and every pool,
each integer allocation differs from the exact real proportional share
by strictly less than one. -/
theorem C9_proportionality_bound (w : List ℚ) (pool : Int) (i : Nat)
    (h : 0 < totalOf w) (hi : i < w.length) :
    |(((alloc w pool).getD i 0 : Int) : ℚ) - (w.getD i 0) / totalOf w * (pool : ℚ)| < 1 := by
  rw [alloc_getD w pool i hi, flooredShares_getD w pool i hi]
  by_cases hmem : i ∈ winnersOf w pool
  · rw [if_pos hmem]
    have hfr : 0 < Int.fract ((w.getD i 0) / totalOf w * (pool : ℚ)) := by
      rw [winnersOf] at hmem
      obtain ⟨e, he, hfst⟩ := List.mem_map.mp hmem
      have hpos := winners_fract_pos w pool (ne_of_gt h) e he
      have heF : e ∈ fracsOf w pool :=
        (sortedFracs_perm w pool).mem_iff.mp (List.mem_of_mem_take he)
      have hee := (mem_fracsOf_eq w pool e heF).2
      rw [hfst] at hee
      rw [hee] at hpos
      exact hpos
    have hfr1 : Int.fract ((w.getD i 0) / totalOf w * (pool : ℚ)) < 1 := Int.fract_lt_one _
    have hexp : ((⌊(w.getD i 0) / totalOf w * (pool : ℚ)⌋ + 1 : Int) : ℚ) -
        (w.getD i 0) / totalOf w * (pool : ℚ) =
        1 - Int.fract ((w.getD i 0) / totalOf w * (pool : ℚ)) := by
      rw [Int.fract]
      push_cast
      ring
    rw [hexp, abs_of_pos (by linarith)]
    linarith
  · rw [if_neg hmem]
    have hfr0 : 0 ≤ Int.fract ((w.getD i 0) / totalOf w * (pool : ℚ)) := Int.fract_nonneg _
    have hfr1 : Int.fract ((w.getD i 0) / totalOf w * (pool : ℚ)) < 1 := Int.fract_lt_one _
    have hexp : ((⌊(w.getD i 0) / totalOf w * (pool : ℚ)⌋ + 0 : Int) : ℚ) -
        (w.getD i 0) / totalOf w * (pool : ℚ) =
        -Int.fract ((w.getD i 0) / totalOf w * (pool : ℚ)) := by
      rw [Int.fract]
      push_cast
      ring
    rw [hexp, abs_neg, abs_of_nonneg hfr0]
    exact hfr1

/-- Witness for C9 at a concrete weight list, pool and index. -/
theorem C9_proportionality_bound_witness :
    (0 < totalOf [(1 : ℚ), 1, 1] ∧ 0 < ([(1 : ℚ), 1, 1]).length) ∧
    |(((alloc [(1 : ℚ), 1, 1] 1000).getD 0 0 : Int) : ℚ) -
      (([(1 : ℚ), 1, 1]).getD 0 0) / totalOf [(1 : ℚ), 1, 1] * ((1000 : Int) : ℚ)| < 1 :=
  ⟨⟨by norm_num [totalOf], by norm_num⟩,
    C9_proportionality_bound [(1 : ℚ), 1, 1] 1000 0 (by norm_num [totalOf]) (by norm_num)⟩
